import Mathlib

/- Verification of the deterministic pipeline of the AI sales-letter generator
   (app.py): the prohibited-word scrubber (detect_prohibited_words), the
   knowledge-base search (search_knowledge) and the prompt assembly inside
   generate_sales_letter.  Python strings are modelled as lists of characters
   (List Char); Python None is modelled with Option; a Python run that raises
   an exception is modelled with Except.  Case mapping (str.lower,
   str.capitalize) is modelled on the ASCII range, which covers every string
   the configuration files and claims use. -/

set_option maxRecDepth 16000

namespace SalesLetter

/-- Model of Python str.lower applied to a string viewed as a character list. -/
def lowerStr (s : List Char) : List Char := s.map Char.toLower

/-- Decides whether pat occurs at the very start of s (helper for the Python
substring operator). -/
def isPref : List Char → List Char → Bool
  | [], _ => true
  | _ :: _, [] => false
  | a :: as, b :: bs => a == b && isPref as bs

/-- Model of the Python substring test pat in s: true when pat occurs
contiguously inside s (the empty pattern occurs in every string). -/
def isSub (pat : List Char) : List Char → Bool
  | [] => pat.isEmpty
  | c :: cs => isPref pat (c :: cs) || isSub pat cs

/-- One record of knowledge_base.yaml, as read by app.py: id, title, content
and a list of tags. -/
structure KnowledgeItem where
  id : List Char
  title : List Char
  content : List Char
  tags : List (List Char)
deriving DecidableEq

/-- Model of SalesLetterGenerator.search_knowledge (app.py lines 52-63).
The Python parameter tags defaults to None and is only tested for truthiness,
so None and the empty list behave identically; it is modelled as a plain list
where the empty list stands for both.  The parameter query defaults to None
and is modelled as Option, because the body calls query.lower().  The Python
condition on line 60 parses as

  (query and (query.lower() in title.lower())) or (query.lower() in content.lower())

since the operator and binds tighter than or.  Consequently, when tags is
falsy and the first disjunct is falsy (query None or empty), the second
disjunct is evaluated: for query = None this raises AttributeError
(None.lower()), and for query = the empty string the test is always true.
The model returns Except.error exactly where the Python code raises. -/
def search_knowledge : List KnowledgeItem → List (List Char) → Option (List Char) →
    Except String (List KnowledgeItem)
  | [], _, _ => Except.ok []
  | item :: rest, tags, query =>
    if tags ≠ [] then
      (search_knowledge rest tags query).map
        (fun rs => if tags.any (fun t => item.tags.contains t) then item :: rs else rs)
    else
      let lhs : Bool := match query with
        | none => false
        | some q => !q.isEmpty && isSub (lowerStr q) (lowerStr item.title)
      if lhs then
        (search_knowledge rest tags query).map (fun rs => item :: rs)
      else
        match query with
        | none => Except.error "AttributeError: NoneType object has no attribute lower"
        | some q =>
          (search_knowledge rest tags query).map
            (fun rs => if isSub (lowerStr q) (lowerStr item.content) then item :: rs else rs)

/-- Computation rule of Except.map on a successful value. -/
theorem except_map_ok {α β ε : Type} (f : α → β) (a : α) :
    Except.map f (Except.ok a : Except ε α) = Except.ok (f a) := rfl

/-- Sample catalog item carrying the urgency and scarcity tags (as in spec
testable property 5). -/
def itemUrgency : KnowledgeItem :=
  ⟨"k1".data, "Scarcity Hook".data, "Use deadlines".data, ["urgency".data, "scarcity".data]⟩

/-- Sample catalog item carrying only the social-proof tag. -/
def itemSocial : KnowledgeItem :=
  ⟨"k2".data, "Social Proof".data, "Show testimonials".data, ["social-proof".data]⟩

/-- C1: the claim states that searching with an empty tag set and no query
returns the empty list for every catalog.  On any non-empty catalog the code
instead raises AttributeError: with tags falsy, the elif condition parses as
(query and ...) or (query.lower() in ...), so the right disjunct evaluates
None.lower().  Only on the empty catalog does the loop body never run and the
empty list come back.  This theorem evaluates the model at both inputs. -/
theorem search_no_tags_no_query_raises :
    search_knowledge [itemUrgency] [] none
        = Except.error "AttributeError: NoneType object has no attribute lower"
      ∧ search_knowledge [] [] none = Except.ok [] := by
  exact ⟨rfl, rfl⟩

/-- C2: the claim states that an empty query string returns the empty list.
Instead the code returns the full catalog: the empty string is falsy, so the
condition falls through to the test (empty string in content.lower()), which
is true for every item.  For a non-empty query the inclusion test does work
as claimed: an item is kept exactly when the query occurs case-insensitively
in its title or content, as the second conjunct shows on a concrete catalog
(the query hook matches only the title Scarcity Hook). -/
theorem search_empty_query_returns_catalog :
    search_knowledge [itemUrgency, itemSocial] [] (some [])
        = Except.ok [itemUrgency, itemSocial]
      ∧ search_knowledge [itemUrgency, itemSocial] [] (some "hook".data)
        = Except.ok [itemUrgency] := by
  exact ⟨rfl, rfl⟩

/-- C7: with a non-empty tag set, search_knowledge returns (without error)
exactly the catalog items sharing at least one tag with the query set, in
catalog order: the result is the stable filter of the catalog by the
predicate has-a-common-tag (OR semantics), a sublist of the catalog. -/
theorem search_by_tags_filter (catalog : List KnowledgeItem) (tags : List (List Char))
    (query : Option (List Char)) (h : tags ≠ []) :
    search_knowledge catalog tags query
        = Except.ok (catalog.filter (fun item => tags.any (fun t => item.tags.contains t)))
      ∧ (∀ item, item ∈ catalog.filter (fun item => tags.any (fun t => item.tags.contains t))
            ↔ item ∈ catalog ∧ ∃ t ∈ tags, t ∈ item.tags)
      ∧ (catalog.filter (fun item => tags.any (fun t => item.tags.contains t))).Sublist catalog := by
  refine ⟨?_, ?_, List.filter_sublist _⟩
  · induction catalog with
    | nil => simp [search_knowledge]
    | cons item rest ih =>
      simp only [search_knowledge, if_pos h, ih, except_map_ok, List.filter_cons]
  · intro item
    simp [List.mem_filter, List.any_eq_true, List.contains, List.elem_iff]

/-- Witness for C7 at the catalog of spec testable property 5: querying the
tag urgency keeps only the item tagged urgency and scarcity. -/
theorem search_by_tags_filter_witness :
    ((["urgency".data] : List (List Char)) ≠ [])
      ∧ search_knowledge [itemUrgency, itemSocial] ["urgency".data] none
          = Except.ok [itemUrgency] := by
  refine ⟨by decide, ?_⟩
  exact (search_by_tags_filter [itemUrgency, itemSocial] ["urgency".data] none
    (by decide)).1.trans (by rfl)

/-- C10: tag mode strictly shadows query mode.  Whenever the tag set is
non-empty, the branch of search_knowledge that reads the query is never
reached, so the result is the same for any two query arguments. -/
theorem search_tags_shadow_query (catalog : List KnowledgeItem) (tags : List (List Char))
    (q1 q2 : Option (List Char)) (h : tags ≠ []) :
    search_knowledge catalog tags q1 = search_knowledge catalog tags q2 := by
  induction catalog with
  | nil => rfl
  | cons item rest ih =>
    simp only [search_knowledge, if_pos h, ih]

/-- Witness for C10: with one selected tag, the query None and an arbitrary
query string produce identical results on a concrete catalog. -/
theorem search_tags_shadow_query_witness :
    ((["urgency".data] : List (List Char)) ≠ [])
      ∧ search_knowledge [itemUrgency, itemSocial] ["urgency".data] none
          = search_knowledge [itemUrgency, itemSocial] ["urgency".data] (some "zzz".data) := by
  exact ⟨by decide,
    search_tags_shadow_query [itemUrgency, itemSocial] ["urgency".data] none
      (some "zzz".data) (by decide)⟩

/-- Model of Python str.capitalize: the first character is upper-cased and
every later character is lower-cased (ASCII case mapping). -/
def pyCapitalize : List Char → List Char
  | [] => []
  | c :: cs => c.toUpper :: cs.map Char.toLower

/-- Fuelled engine of Python str.replace for a non-empty pattern p0 :: pt:
scan left to right and replace each leftmost, non-overlapping occurrence of
the pattern by rep, skipping one character when no occurrence starts here.
The fuel only bounds the recursion depth; pyRepl passes the length of the
string, which always suffices because every step consumes at least one
character. -/
def pyReplaceF (p0 : Char) (pt rep : List Char) : Nat → List Char → List Char
  | _, [] => []
  | 0, s => s
  | fuel + 1, c :: cs =>
    if isPref (p0 :: pt) (c :: cs) then rep ++ pyReplaceF p0 pt rep fuel (cs.drop pt.length)
    else c :: pyReplaceF p0 pt rep fuel cs

/-- The result of pyReplaceF does not depend on the fuel, as long as the fuel
is at least the length of the string. -/
theorem pyReplaceF_fuel (p0 : Char) (pt rep : List Char) :
    ∀ f1 f2 s, s.length ≤ f1 → s.length ≤ f2 →
      pyReplaceF p0 pt rep f1 s = pyReplaceF p0 pt rep f2 s := by
  intro f1
  induction f1 with
  | zero =>
    intro f2 s h1 _
    have hs : s = [] := List.eq_nil_of_length_eq_zero (Nat.le_zero.mp h1)
    subst hs
    cases f2 <;> rfl
  | succ f ih =>
    intro f2 s h1 h2
    cases s with
    | nil => cases f2 <;> rfl
    | cons c cs =>
      cases f2 with
      | zero => simp at h2
      | succ f2 =>
        simp only [List.length_cons, Nat.add_le_add_iff_right] at h1 h2
        simp only [pyReplaceF]
        split
        · refine congrArg (rep ++ ·) (ih f2 _ ?_ ?_) <;>
            simp [List.length_drop] <;> omega
        · exact congrArg (c :: ·) (ih f2 cs h1 h2)

/-- Replacement of every leftmost, non-overlapping occurrence of the
non-empty pattern p0 :: pt by rep, scanning left to right (the engine of
Python str.replace). -/
def pyRepl (p0 : Char) (pt rep s : List Char) : List Char :=
  pyReplaceF p0 pt rep s.length s

/-- Unfolding rule of pyRepl on a non-empty string. -/
theorem pyRepl_cons (p0 : Char) (pt rep : List Char) (c : Char) (cs : List Char) :
    pyRepl p0 pt rep (c :: cs) =
      if isPref (p0 :: pt) (c :: cs) then rep ++ pyRepl p0 pt rep (cs.drop pt.length)
      else c :: pyRepl p0 pt rep cs := by
  show pyReplaceF p0 pt rep (c :: cs).length (c :: cs) = _
  simp only [List.length_cons, pyReplaceF]
  split
  · have := pyReplaceF_fuel p0 pt rep cs.length (cs.drop pt.length).length
      (cs.drop pt.length) (by simp [List.length_drop]) (Nat.le_refl _)
    rw [this]
    rfl
  · rfl

/-- Model of Python s.replace(pat, rep): for a non-empty pattern this is
pyRepl; Python additionally defines replacement by the empty pattern, which
inserts rep before every character and at the end. -/
def pyReplace (s pat rep : List Char) : List Char :=
  match pat with
  | [] => rep ++ s.foldr (fun c acc => c :: (rep ++ acc)) []
  | p0 :: pt => pyRepl p0 pt rep s

/-- Rule configuration of prohibited_words.yaml as read by app.py: the
ordered list prohibited_words and the replacements mapping.  The Python dict
is modelled as an association list; dictGet models dict.get(key, default). -/
structure ProhibitedConfig where
  prohibited_words : List (List Char)
  replacements : List (List Char × List Char)

/-- Model of Python replacements.get(word, word): the first binding of the
key if present, otherwise the default. -/
def dictGet (d : List (List Char × List Char)) (k dflt : List Char) : List Char :=
  match d.find? (fun p => p.1 == k) with
  | some p => p.2
  | none => dflt

/-- Loop of detect_prohibited_words (app.py lines 43-48): iterate over the
word list in order; for each word, test it case-insensitively against the
ORIGINAL input text; when present, look up the replacement (defaulting to
the word itself), rewrite the running clean text in two passes (exact-case
word, then capitalized word), and record the word in the detected list. -/
def detectLoop (repl : List (List Char × List Char)) (text : List Char) :
    List (List Char) → List Char → List Char × List (List Char)
  | [], clean => (clean, [])
  | word :: rest, clean =>
    if isSub (lowerStr word) (lowerStr text) then
      let r := dictGet repl word word
      let next := detectLoop repl text rest
        (pyReplace (pyReplace clean word r) (pyCapitalize word) (pyCapitalize r))
      (next.1, word :: next.2)
    else detectLoop repl text rest clean

/-- Model of SalesLetterGenerator.detect_prohibited_words (app.py lines
38-50): returns the fully substituted clean text together with the ordered
list of detected words. -/
def detect_prohibited_words (cfg : ProhibitedConfig) (text : List Char) :
    List Char × List (List Char) :=
  detectLoop cfg.replacements text cfg.prohibited_words text

/-- When no word of the list occurs case-insensitively in the text, the loop
leaves the clean text untouched and detects nothing. -/
theorem detectLoop_no_match (repl : List (List Char × List Char)) (text : List Char) :
    ∀ (ws : List (List Char)) (clean : List Char),
      (∀ w ∈ ws, isSub (lowerStr w) (lowerStr text) = false) →
      detectLoop repl text ws clean = (clean, []) := by
  intro ws
  induction ws with
  | nil => intro clean _; rfl
  | cons word rest ih =>
    intro clean h
    have hw := h word (List.mem_cons_self word rest)
    simp only [detectLoop, hw, Bool.false_eq_true, if_false]
    exact ih clean (fun w hmem => h w (List.mem_cons_of_mem word hmem))

/-- C4: on any text containing no prohibited term under case-insensitive
substring matching, the scrubber returns the text unchanged together with an
empty detected list. -/
theorem scrub_no_term_identity (cfg : ProhibitedConfig) (text : List Char)
    (h : ∀ w ∈ cfg.prohibited_words, isSub (lowerStr w) (lowerStr text) = false) :
    detect_prohibited_words cfg text = (text, []) :=
  detectLoop_no_match cfg.replacements text cfg.prohibited_words text h

/-- Witness for C4: a text free of the configured terms passes through the
scrubber unchanged. -/
theorem scrub_no_term_identity_witness :
    (∀ w ∈ (ProhibitedConfig.mk ["synergy".data, "hype".data]
        [("synergy".data, "teamwork".data)]).prohibited_words,
      isSub (lowerStr w) (lowerStr "A plain letter.".data) = false)
      ∧ detect_prohibited_words
          (ProhibitedConfig.mk ["synergy".data, "hype".data]
            [("synergy".data, "teamwork".data)])
          "A plain letter.".data = ("A plain letter.".data, []) := by
  refine ⟨by decide, ?_⟩
  exact scrub_no_term_identity _ _ (by decide)

/-- The detected component of the loop ignores the clean-text accumulator
and is exactly the in-order filter of the word list by case-insensitive
presence in the original text. -/
theorem detectLoop_snd (repl : List (List Char × List Char)) (text : List Char) :
    ∀ (ws : List (List Char)) (clean : List Char),
      (detectLoop repl text ws clean).2
        = ws.filter (fun w => isSub (lowerStr w) (lowerStr text)) := by
  intro ws
  induction ws with
  | nil => intro clean; rfl
  | cons word rest ih =>
    intro clean
    cases hw : isSub (lowerStr word) (lowerStr text) with
    | true => simp only [detectLoop, hw, if_true, List.filter_cons, ih]
    | false => simp only [detectLoop, List.filter_cons, hw, Bool.false_eq_true, if_false, ih]

/-- C5: for a rule set (pairwise-distinct terms), the detected list is the
in-order filter of the rule list by case-insensitive occurrence in the
ORIGINAL input text: each term appears at most once, it appears exactly when
it occurs in the source text (not the partially cleaned text), and the
detected list is a sublist of the rule list, hence in rule-set order. -/
theorem scrub_detected_in_order (cfg : ProhibitedConfig) (text : List Char)
    (hnd : cfg.prohibited_words.Nodup) :
    (detect_prohibited_words cfg text).2
        = cfg.prohibited_words.filter (fun w => isSub (lowerStr w) (lowerStr text))
      ∧ (detect_prohibited_words cfg text).2.Nodup
      ∧ (∀ w, w ∈ (detect_prohibited_words cfg text).2
            ↔ w ∈ cfg.prohibited_words ∧ isSub (lowerStr w) (lowerStr text) = true)
      ∧ (detect_prohibited_words cfg text).2.Sublist cfg.prohibited_words := by
  have he : (detect_prohibited_words cfg text).2
      = cfg.prohibited_words.filter (fun w => isSub (lowerStr w) (lowerStr text)) :=
    detectLoop_snd cfg.replacements text cfg.prohibited_words text
  refine ⟨he, ?_, ?_, ?_⟩
  · rw [he]
    exact hnd.filter _
  · intro w
    rw [he]
    simp [List.mem_filter]
  · rw [he]
    exact List.filter_sublist _

/-- Witness for C5: a configuration with two distinct terms, of which only
the first occurs (twice, in two casings) in the text, detects exactly that
term once. -/
theorem scrub_detected_in_order_witness :
    (ProhibitedConfig.mk ["synergy".data, "hype".data]
        [("synergy".data, "teamwork".data)]).prohibited_words.Nodup
      ∧ (detect_prohibited_words
            (ProhibitedConfig.mk ["synergy".data, "hype".data]
              [("synergy".data, "teamwork".data)])
            "synergy and more Synergy".data).2
          = (ProhibitedConfig.mk ["synergy".data, "hype".data]
              [("synergy".data, "teamwork".data)]).prohibited_words.filter
              (fun w => isSub (lowerStr w) (lowerStr "synergy and more Synergy".data)) := by
  refine ⟨by decide, ?_⟩
  exact (scrub_detected_in_order _ _ (by decide)).1

/-- Exception-aware mirror of detectLoop: the same loop run under the
semantics in which a Python exception would surface as Except.error.  Every
operation the loop performs is total (str.lower, the substring test, the
two-argument dict.get with its default, str.replace), so no branch
constructs an error. -/
def detectLoopE (repl : List (List Char × List Char)) (text : List Char) :
    List (List Char) → List Char → Except String (List Char × List (List Char))
  | [], clean => Except.ok (clean, [])
  | word :: rest, clean =>
    if isSub (lowerStr word) (lowerStr text) then
      let r := dictGet repl word word
      match detectLoopE repl text rest
        (pyReplace (pyReplace clean word r) (pyCapitalize word) (pyCapitalize r)) with
      | Except.ok next => Except.ok (next.1, word :: next.2)
      | Except.error e => Except.error e
    else detectLoopE repl text rest clean

/-- Run of detect_prohibited_words under the exception-aware semantics. -/
def detect_prohibited_words_run (cfg : ProhibitedConfig) (text : List Char) :
    Except String (List Char × List (List Char)) :=
  detectLoopE cfg.replacements text cfg.prohibited_words text

/-- The exception-aware loop always succeeds, with the value of the pure
loop. -/
theorem detectLoopE_ok (repl : List (List Char × List Char)) (text : List Char) :
    ∀ (ws : List (List Char)) (clean : List Char),
      detectLoopE repl text ws clean = Except.ok (detectLoop repl text ws clean) := by
  intro ws
  induction ws with
  | nil => intro clean; rfl
  | cons word rest ih =>
    intro clean
    cases hw : isSub (lowerStr word) (lowerStr text) with
    | true => simp only [detectLoopE, detectLoop, hw, if_true, ih]
    | false => simp only [detectLoopE, detectLoop, hw, Bool.false_eq_true, if_false, ih]

/-- C6: scrubbing is total.  For every rule configuration and every input
text, detect_prohibited_words run under the exception-aware semantics
terminates with an ordinary Except.ok result, never an error: absence of
matches is a normal result and no operation of the loop can raise. -/
theorem scrub_never_fails (cfg : ProhibitedConfig) (text : List Char) :
    detect_prohibited_words_run cfg text = Except.ok (detect_prohibited_words cfg text) :=
  detectLoopE_ok cfg.replacements text cfg.prohibited_words text

/-- Building block of a text for the casing analysis of the scrubber: a
separator, an exact-case occurrence of the term, a capitalized occurrence,
or an occurrence in some other casing. -/
inductive Piece where
  | sep (s : List Char)
  | occE
  | occC
  | occO (u : List Char)
deriving DecidableEq

/-- True exactly on the exact-case occurrence marker. -/
def Piece.isExact : Piece → Bool
  | .occE => true
  | _ => false

/-- True exactly on the capitalized occurrence marker. -/
def Piece.isCapped : Piece → Bool
  | .occC => true
  | _ => false

/-- Realization of a piece before any replacement: the term w stands at the
exact occurrences and pyCapitalize w at the capitalized ones. -/
def pieceIn (w : List Char) : Piece → List Char
  | .sep s => s
  | .occE => w
  | .occC => pyCapitalize w
  | .occO u => u

/-- Realization of a piece after the first replacement pass: exact-case
occurrences are already rewritten to the replacement r. -/
def pieceMid (w r : List Char) : Piece → List Char
  | .sep s => s
  | .occE => r
  | .occC => pyCapitalize w
  | .occO u => u

/-- Realization of a piece after both replacement passes (the first
parameter, the term, is kept for symmetry with pieceIn and pieceMid). -/
def pieceOut (_w r : List Char) : Piece → List Char
  | .sep s => s
  | .occE => r
  | .occC => pyCapitalize r
  | .occO u => u

/-- Concatenation of the realizations of a list of pieces. -/
def flattenP (f : Piece → List Char) : List Piece → List Char
  | [] => []
  | p :: ps => f p ++ flattenP f ps

/-- Holds when no occurrence of pat starts inside a (an occurrence may
continue past a into b): every start position of a is checked against the
concatenation. -/
def noStartB (pat a b : List Char) : Bool :=
  (List.range a.length).all (fun i => !(isPref pat ((a ++ b).drop i)))

/-- Holds when the designated pieces realize exactly pat and no occurrence
of pat starts inside any other piece (not even one running from inside a
piece into the sequel): then the leftmost-scan replacement rewrites exactly
the designated pieces. -/
def strayFreeB (pat : List Char) (f : Piece → List Char) (isHit : Piece → Bool) :
    List Piece → Bool
  | [] => true
  | p :: ps =>
    (if isHit p then f p == pat else noStartB pat (f p) (flattenP f ps))
      && strayFreeB pat f isHit ps

/-- Well-formedness of an other-casing occurrence marker: it carries a
casing variant of the term w that is neither the term itself nor its
capitalization. -/
def otherCasingB (w : List Char) : Piece → Bool
  | .occO u => (lowerStr u == lowerStr w) && !(u == w) && !(u == pyCapitalize w)
  | _ => true

/-- A list is a leading segment of itself extended by anything. -/
theorem isPref_append_self (x y : List Char) : isPref x (x ++ y) = true := by
  induction x with
  | nil => rfl
  | cons a as ih => simp [isPref, ih]

/-- Dropping the length of a leading segment uncovers the remainder. -/
theorem drop_length_append (a b : List Char) : (a ++ b).drop a.length = b := by
  induction a with
  | nil => rfl
  | cons x xs ih => simp [List.drop_succ_cons, ih]

/-- Characterization of noStartB as a bounded quantification over start
positions. -/
theorem noStartB_iff (pat a b : List Char) :
    noStartB pat a b = true
      ↔ ∀ i < a.length, isPref pat ((a ++ b).drop i) = false := by
  simp [noStartB, List.all_eq_true, List.mem_range]

/-- The replacement scan consumes a full leading occurrence of its pattern
and continues behind it. -/
theorem pyRepl_hit (p0 : Char) (pt rep b : List Char) :
    pyRepl p0 pt rep ((p0 :: pt) ++ b) = rep ++ pyRepl p0 pt rep b := by
  rw [show (p0 :: pt) ++ b = p0 :: (pt ++ b) from rfl, pyRepl_cons,
    if_pos (show isPref (p0 :: pt) (p0 :: (pt ++ b)) = true from isPref_append_self (p0 :: pt) b),
    drop_length_append pt b]

/-- The replacement scan copies any block in which no occurrence of the
pattern starts. -/
theorem pyRepl_skip (p0 : Char) (pt rep : List Char) :
    ∀ a b : List Char, noStartB (p0 :: pt) a b = true →
      pyRepl p0 pt rep (a ++ b) = a ++ pyRepl p0 pt rep b := by
  intro a
  induction a with
  | nil => intro b _; rfl
  | cons c a2 ih =>
    intro b h
    have hall := (noStartB_iff _ _ _).mp h
    have h0 : isPref (p0 :: pt) (c :: (a2 ++ b)) = false := by
      simpa using hall 0 (by simp)
    have htail : noStartB (p0 :: pt) a2 b = true := by
      refine (noStartB_iff _ _ _).mpr ?_
      intro i hi
      simpa [List.drop_succ_cons] using hall (i + 1) (by simpa using Nat.succ_lt_succ hi)
    rw [show (c :: a2) ++ b = c :: (a2 ++ b) from rfl, pyRepl_cons,
      if_neg (by simp [h0]), ih b htail]
    rfl

/-- Main decomposition lemma for one replacement pass: if the designated
pieces realize exactly the pattern and no stray occurrence of the pattern
starts anywhere else, the scan rewrites exactly the designated pieces to
rep and copies every other piece verbatim. -/
theorem pyRepl_pieces (p0 : Char) (pt rep : List Char) (f g : Piece → List Char)
    (isHit : Piece → Bool)
    (hf : ∀ q, isHit q = true → f q = p0 :: pt)
    (hg : ∀ q, isHit q = true → g q = rep)
    (hfg : ∀ q, isHit q = false → g q = f q) :
    ∀ ps : List Piece, strayFreeB (p0 :: pt) f isHit ps = true →
      pyRepl p0 pt rep (flattenP f ps) = flattenP g ps := by
  intro ps
  induction ps with
  | nil => intro _; rfl
  | cons p ps ih =>
    intro h
    have h1 : (if isHit p then f p == (p0 :: pt)
          else noStartB (p0 :: pt) (f p) (flattenP f ps)) = true
        ∧ strayFreeB (p0 :: pt) f isHit ps = true := by
      simpa [strayFreeB, Bool.and_eq_true] using h
    cases hp : isHit p with
    | true =>
      show pyRepl p0 pt rep (f p ++ flattenP f ps) = g p ++ flattenP g ps
      rw [hf p hp, hg p hp, pyRepl_hit, ih h1.2]
    | false =>
      have hn : noStartB (p0 :: pt) (f p) (flattenP f ps) = true := by
        have h2 := h1.1
        rw [hp] at h2
        simpa using h2
      show pyRepl p0 pt rep (f p ++ flattenP f ps) = g p ++ flattenP g ps
      rw [pyRepl_skip p0 pt rep (f p) _ hn, ih h1.2, hfg p hp]

/-- Counterexample to C3 as stated: with the lower-case term aba and
replacement x, the input ABAba contains the all-caps occurrence ABA, yet
scrubbing returns ABX: the second pass rewrites the capitalized occurrence
Aba, which overlaps the all-caps occurrence and consumes its last letter, so
an occurrence in another casing is NOT left untouched. -/
theorem scrub_allcaps_not_untouched :
    detect_prohibited_words ⟨[['a','b','a']], [(['a','b','a'], ['x'])]⟩ ['A','B','A','b','a']
        = (['A','B','X'], [['a','b','a']])
      ∧ isSub ['A','B','A'] ['A','B','A','b','a'] = true
      ∧ isSub ['A','B','A'] ['A','B','X'] = false := by
  refine ⟨by decide, by decide, by decide⟩

/-- C3 (amended): for a rule with a non-empty lower-case term w and
replacement r, on any text that decomposes into separators and
non-overlapping, non-adjacent-interfering occurrences of the casing
variants of w (no stray start of w in the text, and no stray start of the
capitalized term after the first pass, which also rules out the replacement
recreating either pattern), the scrubber replaces every exact-case
occurrence by r, every capitalized occurrence by the capitalized r, leaves
every other-casing occurrence untouched, and detects w once. -/
theorem scrub_casing_variants (w r : List Char) (ps : List Piece)
    (hw : w ≠ [])
    (hlow : lowerStr w = w)
    (hdet : isSub (lowerStr w) (lowerStr (flattenP (pieceIn w) ps)) = true)
    (huo : ps.all (otherCasingB w) = true)
    (h1 : strayFreeB w (pieceIn w) Piece.isExact ps = true)
    (h2 : strayFreeB (pyCapitalize w) (pieceMid w r) Piece.isCapped ps = true) :
    detect_prohibited_words ⟨[w], [(w, r)]⟩ (flattenP (pieceIn w) ps)
      = (flattenP (pieceOut w r) ps, [w]) := by
  obtain ⟨w0, wt, rfl⟩ : ∃ w0 wt, w = w0 :: wt := by
    cases w with
    | nil => exact absurd rfl hw
    | cons a b => exact ⟨a, b, rfl⟩
  have hr : dictGet [(w0 :: wt, r)] (w0 :: wt) (w0 :: wt) = r := by
    simp [dictGet, List.find?]
  have hf1 : ∀ q, Piece.isExact q = true → pieceIn (w0 :: wt) q = w0 :: wt := by
    intro q hq
    cases q with
    | occE => rfl
    | sep s => exact absurd hq (by simp [Piece.isExact])
    | occC => exact absurd hq (by simp [Piece.isExact])
    | occO u => exact absurd hq (by simp [Piece.isExact])
  have hg1 : ∀ q, Piece.isExact q = true → pieceMid (w0 :: wt) r q = r := by
    intro q hq
    cases q with
    | occE => rfl
    | sep s => exact absurd hq (by simp [Piece.isExact])
    | occC => exact absurd hq (by simp [Piece.isExact])
    | occO u => exact absurd hq (by simp [Piece.isExact])
  have hfg1 : ∀ q, Piece.isExact q = false → pieceMid (w0 :: wt) r q = pieceIn (w0 :: wt) q := by
    intro q hq
    cases q with
    | occE => exact absurd hq (by simp [Piece.isExact])
    | sep s => rfl
    | occC => rfl
    | occO u => rfl
  have hf2 : ∀ q, Piece.isCapped q = true →
      pieceMid (w0 :: wt) r q = w0.toUpper :: wt.map Char.toLower := by
    intro q hq
    cases q with
    | occC => rfl
    | sep s => exact absurd hq (by simp [Piece.isCapped])
    | occE => exact absurd hq (by simp [Piece.isCapped])
    | occO u => exact absurd hq (by simp [Piece.isCapped])
  have hg2 : ∀ q, Piece.isCapped q = true → pieceOut (w0 :: wt) r q = pyCapitalize r := by
    intro q hq
    cases q with
    | occC => rfl
    | sep s => exact absurd hq (by simp [Piece.isCapped])
    | occE => exact absurd hq (by simp [Piece.isCapped])
    | occO u => exact absurd hq (by simp [Piece.isCapped])
  have hfg2 : ∀ q, Piece.isCapped q = false →
      pieceOut (w0 :: wt) r q = pieceMid (w0 :: wt) r q := by
    intro q hq
    cases q with
    | occC => exact absurd hq (by simp [Piece.isCapped])
    | sep s => rfl
    | occE => rfl
    | occO u => rfl
  have e1 : pyRepl w0 wt r (flattenP (pieceIn (w0 :: wt)) ps)
      = flattenP (pieceMid (w0 :: wt) r) ps :=
    pyRepl_pieces w0 wt r _ _ Piece.isExact hf1 hg1 hfg1 ps h1
  have e2 : pyRepl w0.toUpper (wt.map Char.toLower) (pyCapitalize r)
        (flattenP (pieceMid (w0 :: wt) r) ps)
      = flattenP (pieceOut (w0 :: wt) r) ps :=
    pyRepl_pieces w0.toUpper (wt.map Char.toLower) (pyCapitalize r) _ _ Piece.isCapped
      hf2 hg2 hfg2 ps (by simpa [pyCapitalize] using h2)
  have hcap : pyCapitalize (w0 :: wt) = w0.toUpper :: wt.map Char.toLower := rfl
  show detectLoop [(w0 :: wt, r)] (flattenP (pieceIn (w0 :: wt)) ps) [w0 :: wt]
      (flattenP (pieceIn (w0 :: wt)) ps) = _
  simp only [detectLoop, hdet, if_true, hr]
  rw [hcap]
  simp only [pyReplace, e1, e2]

/-- Text pieces of the witness for C3: x synergy y Synergy z SYNERGY. with
one exact, one capitalized and one all-caps occurrence of the term. -/
def synPieces : List Piece :=
  [Piece.sep "x ".data, Piece.occE, Piece.sep " y ".data, Piece.occC,
   Piece.sep " z ".data, Piece.occO "SYNERGY".data, Piece.sep ".".data]

/-- Witness for C3 (amended) at the rule of spec testable property 3: the
term synergy with replacement teamwork, on a text with an exact, a
capitalized and an all-caps occurrence; the first two are replaced with the
matching casing and the all-caps one is preserved. -/
theorem scrub_casing_variants_witness :
    ("synergy".data ≠ ([] : List Char))
      ∧ lowerStr "synergy".data = "synergy".data
      ∧ isSub (lowerStr "synergy".data)
          (lowerStr (flattenP (pieceIn "synergy".data) synPieces)) = true
      ∧ synPieces.all (otherCasingB "synergy".data) = true
      ∧ strayFreeB "synergy".data (pieceIn "synergy".data) Piece.isExact synPieces = true
      ∧ strayFreeB (pyCapitalize "synergy".data)
          (pieceMid "synergy".data "teamwork".data) Piece.isCapped synPieces = true
      ∧ detect_prohibited_words ⟨["synergy".data], [("synergy".data, "teamwork".data)]⟩
          (flattenP (pieceIn "synergy".data) synPieces)
          = (flattenP (pieceOut "synergy".data "teamwork".data) synPieces, ["synergy".data]) := by
  refine ⟨by decide, by decide, by decide, by decide, by decide, by decide, ?_⟩
  exact scrub_casing_variants "synergy".data "teamwork".data synPieces
    (by decide) (by decide) (by decide) (by decide) (by decide) (by decide)

/-- Product attributes interpolated into the prompt (app.py lines 280-285). -/
structure ProductDetails where
  name : List Char
  type : List Char
  features : List Char
  uvp : List Char

/-- Audience attributes interpolated into the prompt (app.py lines 287-291). -/
structure AudienceDetails where
  primary : List Char
  pain_points : List Char
  desired_outcomes : List Char

/-- Style attributes interpolated into the prompt (app.py lines 293-297). -/
structure Customization where
  tone : List Char
  length : List Char
  emphasis : List Char

/-- Fixed prompt text from the start of the f-string to the Name slot. -/
def seg0 : List Char := "\n        Generate a high-converting sales letter with the following specifications:\n        \n        PRODUCT DETAILS:\n        - Name: ".data

/-- Fixed prompt text between the Name and Type slots. -/
def seg1 : List Char := "\n        - Type: ".data

/-- Fixed prompt text between the Type and Key Features slots. -/
def seg2 : List Char := "\n        - Key Features: ".data

/-- Fixed prompt text between the Key Features and Unique Value Proposition
slots. -/
def seg3 : List Char := "\n        - Unique Value Proposition: ".data

/-- Fixed prompt text between the Unique Value Proposition and Primary
Audience slots. -/
def seg4 : List Char := "\n        \n        TARGET AUDIENCE:\n        - Primary Audience: ".data

/-- Fixed prompt text between the Primary Audience and Pain Points slots. -/
def seg5 : List Char := "\n        - Pain Points: ".data

/-- Fixed prompt text between the Pain Points and Desired Outcomes slots. -/
def seg6 : List Char := "\n        - Desired Outcomes: ".data

/-- Fixed prompt text between the Desired Outcomes and Tone slots. -/
def seg7 : List Char := "\n        \n        CUSTOMIZATION:\n        - Tone: ".data

/-- Fixed prompt text between the Tone and Length slots. -/
def seg8 : List Char := "\n        - Length: ".data

/-- Fixed prompt text between the Length and Key Emphasis slots. -/
def seg9 : List Char := "\n        - Key Emphasis: ".data

/-- Fixed prompt text between the Key Emphasis slot and the knowledge
context slot. -/
def seg10 : List Char := "\n        \n        ".data

/-- Fixed prompt text after the knowledge context slot, down to the closing
of the f-string. -/
def seg11 : List Char := "\n        \n        REQUIREMENTS:\n        1. Structure the letter with clear sections\n        2. Use persuasive copywriting techniques\n        3. Include emotional triggers\n        4. Create a compelling narrative\n        5. End with strong call-to-action\n        6. Format in Markdown with clear headings\n        \n        IMPORTANT: Avoid using any marketing hype or exaggerated claims. Focus on genuine value and benefits.\n        \n        Generate the sales letter:\n        ".data

/-- Header of the reference-knowledge section, without its trailing
newline. -/
def kheader : List Char := "RELEVANT COPYWRITING KNOWLEDGE:".data

/-- Header line of the reference-knowledge section exactly as the code
assigns it (app.py line 71), with its trailing newline. -/
def kheaderLine : List Char := "RELEVANT COPYWRITING KNOWLEDGE:\n".data

/-- One snippet of the knowledge context: the f-string piece of app.py line
75, a newline, the title, a colon and newline, the content, a newline. -/
def fmtItem (it : KnowledgeItem) : List Char :=
  '\n' :: (it.title ++ ':' :: '\n' :: (it.content ++ ['\n']))

/-- Loop of app.py lines 72-75: for each selected id, resolve the first
catalog item with that id (Python next with default None) and append its
formatted snippet to the accumulated context; unresolved ids contribute
nothing. -/
def kcLoop (kb : List KnowledgeItem) : List (List Char) → List Char → List Char
  | [], acc => acc
  | kid :: rest, acc =>
    match kb.find? (fun item => item.id == kid) with
    | some item => kcLoop kb rest (acc ++ fmtItem item)
    | none => kcLoop kb rest acc

/-- Model of the knowledge_context construction of app.py lines 69-75: the
empty string when no knowledge is selected, otherwise the header line
followed by the formatted snippets of the resolved selected ids in
selection order. -/
def knowledge_context (kb : List KnowledgeItem) (selected : List (List Char)) : List Char :=
  if selected = [] then []
  else kcLoop kb selected kheaderLine

/-- Model of the prompt string built inside generate_sales_letter (app.py
lines 77-109): the f-string with the ten field values and the knowledge
context interpolated into the fixed segments.  The external model call that
consumes the prompt is out of scope. -/
def generate_prompt (p : ProductDetails) (a : AudienceDetails) (c : Customization)
    (kc : List Char) : List Char :=
  seg0 ++ p.name ++ seg1 ++ p.type ++ seg2 ++ p.features ++ seg3 ++ p.uvp
    ++ seg4 ++ a.primary ++ seg5 ++ a.pain_points ++ seg6 ++ a.desired_outcomes
    ++ seg7 ++ c.tone ++ seg8 ++ c.length ++ seg9 ++ c.emphasis
    ++ seg10 ++ kc ++ seg11

/-- Occurrence of pat as a contiguous substring of s. -/
def OccursIn (pat s : List Char) : Prop := ∃ l t, s = l ++ (pat ++ t)

/-- Characterization of isPref as an existential over remainders. -/
theorem isPref_iff (pat : List Char) : ∀ s, isPref pat s = true ↔ ∃ t, s = pat ++ t := by
  induction pat with
  | nil =>
    intro s
    constructor
    · intro _; exact ⟨s, rfl⟩
    · intro _; rfl
  | cons a as ih =>
    intro s
    cases s with
    | nil =>
      constructor
      · intro h; exact absurd h (by simp [isPref])
      · rintro ⟨t, ht⟩; exact absurd ht (by simp)
    | cons b bs =>
      rw [show isPref (a :: as) (b :: bs) = ((a == b) && isPref as bs) from rfl,
        Bool.and_eq_true, beq_iff_eq, ih bs]
      constructor
      · rintro ⟨rfl, t, rfl⟩
        exact ⟨t, rfl⟩
      · rintro ⟨t, ht⟩
        injection ht with h1 h2
        exact ⟨h1.symm, t, h2⟩

/-- Characterization of the Python substring test by occurrences. -/
theorem isSub_iff_occurs (pat : List Char) : ∀ s, isSub pat s = true ↔ OccursIn pat s := by
  intro s
  induction s with
  | nil =>
    constructor
    · intro h
      have hp : pat = [] := by simpa [isSub, List.isEmpty_iff] using h
      subst hp
      exact ⟨[], [], rfl⟩
    · rintro ⟨l, t, h⟩
      rcases List.append_eq_nil.mp h.symm with ⟨hl, hpr⟩
      rcases List.append_eq_nil.mp hpr with ⟨hp, ht⟩
      subst hp
      rfl
  | cons c cs ih =>
    rw [show isSub pat (c :: cs) = (isPref pat (c :: cs) || isSub pat cs) from rfl,
      Bool.or_eq_true, isPref_iff pat (c :: cs), ih]
    constructor
    · rintro (⟨t, ht⟩ | ⟨l, t, rfl⟩)
      · exact ⟨[], t, by simpa using ht⟩
      · exact ⟨c :: l, t, rfl⟩
    · rintro ⟨l, t, h⟩
      cases l with
      | nil => exact Or.inl ⟨t, by simpa using h⟩
      | cons x xs =>
        injection h with h1 h2
        exact Or.inr ⟨xs, t, h2⟩

/-- Absence of an occurrence from a false substring test. -/
theorem not_occurs_of_isSub_eq_false (pat s : List Char) (h : isSub pat s = false) :
    ¬ OccursIn pat s := by
  intro ho
  rw [(isSub_iff_occurs pat s).mpr ho] at h
  exact Bool.true_eq_false.mp h

/-- Prefix dichotomy over an append: a prefix of A ++ B either fits inside A
or extends A by a prefix of B. -/
theorem pref_append_cases (A : List Char) : ∀ pat B : List Char,
    (∃ t, A ++ B = pat ++ t) →
    (∃ t, A = pat ++ t) ∨ (∃ p2, pat = A ++ p2 ∧ ∃ t, B = p2 ++ t) := by
  induction A with
  | nil =>
    intro pat B h
    exact Or.inr ⟨pat, rfl, by simpa using h⟩
  | cons x xs ih =>
    intro pat B h
    cases pat with
    | nil => exact Or.inl ⟨x :: xs, rfl⟩
    | cons p0 pt =>
      obtain ⟨t, ht⟩ := h
      injection ht with h1 h2
      subst h1
      rcases ih pt B ⟨t, h2⟩ with ⟨t2, ht2⟩ | ⟨p2, hp2, t2, ht2⟩
      · exact Or.inl ⟨t2, by simp [ht2]⟩
      · exact Or.inr ⟨p2, by simp [hp2], t2, ht2⟩

/-- Occurrence trichotomy over an append: an occurrence lies inside the left
part, inside the right part, or straddles the boundary with a non-empty
piece on each side. -/
theorem occurs_append (pat : List Char) : ∀ a b : List Char, OccursIn pat (a ++ b) →
    OccursIn pat a ∨ OccursIn pat b ∨
      (∃ a2 p2, a2 ≠ [] ∧ p2 ≠ [] ∧ pat = a2 ++ p2
        ∧ (∃ a1, a = a1 ++ a2) ∧ (∃ t, b = p2 ++ t)) := by
  intro a
  induction a with
  | nil =>
    intro b h
    exact Or.inr (Or.inl (by simpa using h))
  | cons x xs ih =>
    intro b h
    obtain ⟨l, t, hl⟩ := h
    cases l with
    | nil =>
      rcases pref_append_cases (x :: xs) pat b ⟨t, by simpa using hl⟩ with
        ⟨t2, ht2⟩ | ⟨p2, hp2, t2, ht2⟩
      · exact Or.inl ⟨[], t2, by simpa using ht2⟩
      · by_cases hp : p2 = []
        · subst hp
          exact Or.inl ⟨[], [], by simp [hp2]⟩
        · exact Or.inr (Or.inr ⟨x :: xs, p2, by simp, hp, hp2, ⟨[], rfl⟩, ⟨t2, ht2⟩⟩)
    | cons y l2 =>
      injection hl with h1 h2
      rcases ih b ⟨l2, t, h2⟩ with hA | hB | ⟨a2, p2, hne, hpne, hpeq, ⟨a1, ha1⟩, hb⟩
      · obtain ⟨l3, t3, h3⟩ := hA
        exact Or.inl ⟨x :: l3, t3, by simp [h3]⟩
      · exact Or.inr (Or.inl hB)
      · exact Or.inr (Or.inr ⟨a2, p2, hne, hpne, hpeq, ⟨x :: a1, by simp [ha1]⟩, hb⟩)

/-- A pattern that contains no newline cannot straddle a boundary whose
right side starts with a newline. -/
theorem occurs_newline_boundary (pat a b2 : List Char) (hnl : '\n' ∉ pat)
    (h : OccursIn pat (a ++ ('\n' :: b2))) : OccursIn pat a ∨ OccursIn pat ('\n' :: b2) := by
  rcases occurs_append pat a ('\n' :: b2) h with h1 | h2 | ⟨a2, p2, _, hpne, hpeq, _, ⟨t, ht⟩⟩
  · exact Or.inl h1
  · exact Or.inr h2
  · exfalso
    cases p2 with
    | nil => exact hpne rfl
    | cons q qt =>
      injection ht with hq _
      apply hnl
      rw [hpeq, ← hq]
      exact List.mem_append_right _ (List.mem_cons_self _ _)

/-- A pattern whose first character does not occur in the block P cannot
occur in P ++ b except inside b. -/
theorem occurs_headchar (ch : Char) (patT P b : List Char) (hch : ch ∉ P)
    (h : OccursIn (ch :: patT) (P ++ b)) : OccursIn (ch :: patT) b := by
  rcases occurs_append (ch :: patT) P b h with h1 | h2 | ⟨a2, p2, hane, _, hpeq, ⟨a1, ha1⟩, _⟩
  · exfalso
    obtain ⟨l, t, hl⟩ := h1
    apply hch
    rw [hl]
    exact List.mem_append_right _ (List.mem_append_left _ (List.mem_cons_self _ _))
  · exact h2
  · exfalso
    cases a2 with
    | nil => exact hane rfl
    | cons y ys =>
      injection hpeq with hy _
      apply hch
      rw [ha1, hy]
      exact List.mem_append_right _ (List.mem_cons_self _ _)

/-- An occurrence of an extended pattern contains an occurrence of the
pattern itself. -/
theorem occurs_of_append_occurs (pat ext s : List Char) (h : OccursIn (pat ++ ext) s) :
    OccursIn pat s := by
  obtain ⟨l, t, hl⟩ := h
  exact ⟨l, ext ++ t, by rw [hl]; simp [List.append_assoc]⟩

/-- Portion of seg0 before its final newline. -/
def s0h : List Char := "\n        Generate a high-converting sales letter with the following specifications:\n        \n        PRODUCT DETAILS:".data

/-- Portion of seg0 after its final newline (contains no capital R). -/
def s0t : List Char := "        - Name: ".data

/-- Portion of seg1 after its newline (contains no capital R). -/
def s1t : List Char := "        - Type: ".data

/-- Portion of seg2 after its newline (contains no capital R). -/
def s2t : List Char := "        - Key Features: ".data

/-- Portion of seg3 after its newline (contains no capital R). -/
def s3t : List Char := "        - Unique Value Proposition: ".data

/-- Portion of seg4 before its final newline. -/
def s4h : List Char := "\n        \n        TARGET AUDIENCE:".data

/-- Portion of seg4 after its final newline (contains no capital R). -/
def s4t : List Char := "        - Primary Audience: ".data

/-- Portion of seg5 after its newline (contains no capital R). -/
def s5t : List Char := "        - Pain Points: ".data

/-- Portion of seg6 after its newline (contains no capital R). -/
def s6t : List Char := "        - Desired Outcomes: ".data

/-- Portion of seg7 before its final newline. -/
def s7h : List Char := "\n        \n        CUSTOMIZATION:".data

/-- Portion of seg7 after its final newline (contains no capital R). -/
def s7t : List Char := "        - Tone: ".data

/-- Portion of seg8 after its newline (contains no capital R). -/
def s8t : List Char := "        - Length: ".data

/-- Portion of seg9 after its newline (contains no capital R). -/
def s9t : List Char := "        - Key Emphasis: ".data

/-- Elimination step for the header search: the prompt region ahead of a
field is a header-free block ending in a newline, then a line fragment free
of the capital R that the header starts with; hence an occurrence of the
header in that region would have to lie in the field itself (excluded) and
any occurrence lies in the rest, which starts with a newline. -/
theorem kheader_step (shead stail field rest : List Char)
    (hch : 'R' ∉ stail)
    (hh : isSub kheader shead = false)
    (hf : isSub kheader field = false)
    (h : OccursIn kheader (shead ++ ('\n' :: (stail ++ (field ++ rest)))))
    (hrest : ∃ rt, rest = '\n' :: rt) :
    OccursIn kheader rest := by
  have hnl : '\n' ∉ kheader := by decide
  rcases occurs_newline_boundary kheader shead (stail ++ (field ++ rest)) hnl h with h1 | h2
  · exact absurd h1 (not_occurs_of_isSub_eq_false _ _ hh)
  · have hch2 : 'R' ∉ ('\n' :: stail) := by
      intro hm
      rcases List.mem_cons.mp hm with hx | hx
      · exact absurd hx (by decide)
      · exact hch hx
    have h2b : OccursIn ('R' :: "ELEVANT COPYWRITING KNOWLEDGE:".data)
        (('\n' :: stail) ++ (field ++ rest)) := h2
    have h3 : OccursIn kheader (field ++ rest) :=
      occurs_headchar 'R' ("ELEVANT COPYWRITING KNOWLEDGE:".data) ('\n' :: stail)
        (field ++ rest) hch2 h2b
    obtain ⟨rt, hrt⟩ := hrest
    subst hrt
    rcases occurs_newline_boundary kheader field rt hnl h3 with h4 | h5
    · exact absurd h4 (not_occurs_of_isSub_eq_false _ _ hf)
    · exact h5

/-- Splitting of seg0 at its final newline, under a right context. -/
theorem seg0_split (X : List Char) : seg0 ++ X = s0h ++ ('\n' :: (s0t ++ X)) := by
  rw [show seg0 = s0h ++ ('\n' :: s0t) from by decide, List.append_assoc]
  rfl

/-- Splitting of seg1 at its leading newline, under a right context. -/
theorem seg1_split (X : List Char) : seg1 ++ X = '\n' :: (s1t ++ X) := by
  rw [show seg1 = '\n' :: s1t from by decide]
  rfl

/-- Splitting of seg2 at its leading newline, under a right context. -/
theorem seg2_split (X : List Char) : seg2 ++ X = '\n' :: (s2t ++ X) := by
  rw [show seg2 = '\n' :: s2t from by decide]
  rfl

/-- Splitting of seg3 at its leading newline, under a right context. -/
theorem seg3_split (X : List Char) : seg3 ++ X = '\n' :: (s3t ++ X) := by
  rw [show seg3 = '\n' :: s3t from by decide]
  rfl

/-- Splitting of seg4 at its final newline, under a right context. -/
theorem seg4_split (X : List Char) : seg4 ++ X = s4h ++ ('\n' :: (s4t ++ X)) := by
  rw [show seg4 = s4h ++ ('\n' :: s4t) from by decide, List.append_assoc]
  rfl

/-- Splitting of seg5 at its leading newline, under a right context. -/
theorem seg5_split (X : List Char) : seg5 ++ X = '\n' :: (s5t ++ X) := by
  rw [show seg5 = '\n' :: s5t from by decide]
  rfl

/-- Splitting of seg6 at its leading newline, under a right context. -/
theorem seg6_split (X : List Char) : seg6 ++ X = '\n' :: (s6t ++ X) := by
  rw [show seg6 = '\n' :: s6t from by decide]
  rfl

/-- Splitting of seg7 at its final newline, under a right context. -/
theorem seg7_split (X : List Char) : seg7 ++ X = s7h ++ ('\n' :: (s7t ++ X)) := by
  rw [show seg7 = s7h ++ ('\n' :: s7t) from by decide, List.append_assoc]
  rfl

/-- Splitting of seg8 at its leading newline, under a right context. -/
theorem seg8_split (X : List Char) : seg8 ++ X = '\n' :: (s8t ++ X) := by
  rw [show seg8 = '\n' :: s8t from by decide]
  rfl

/-- Splitting of seg9 at its leading newline, under a right context. -/
theorem seg9_split (X : List Char) : seg9 ++ X = '\n' :: (s9t ++ X) := by
  rw [show seg9 = '\n' :: s9t from by decide]
  rfl

/-- C8 (amended): whenever none of the ten user-supplied field values
contains the header string of the reference-knowledge section, assembling
the prompt with an empty selected-knowledge list yields a prompt in which
neither the header string nor the full header line occurs anywhere.  The
amendment is forced by the counterexample below: a field value may itself
smuggle the header into the prompt. -/
theorem assemble_no_header (p : ProductDetails) (a : AudienceDetails) (c : Customization)
    (kb : List KnowledgeItem)
    (hfields : ∀ f ∈ [p.name, p.type, p.features, p.uvp, a.primary, a.pain_points,
        a.desired_outcomes, c.tone, c.length, c.emphasis], isSub kheader f = false) :
    isSub kheader (generate_prompt p a c (knowledge_context kb [])) = false
      ∧ isSub kheaderLine (generate_prompt p a c (knowledge_context kb [])) = false := by
  have hkc : knowledge_context kb [] = [] := rfl
  rw [hkc]
  have hmain : isSub kheader (generate_prompt p a c []) = false := by
    cases hq : isSub kheader (generate_prompt p a c []) with
    | false => rfl
    | true =>
      exfalso
      have hocc : OccursIn kheader (generate_prompt p a c []) :=
        (isSub_iff_occurs _ _).mp hq
      simp only [generate_prompt, List.append_assoc, seg0_split, seg1_split, seg2_split,
        seg3_split, seg4_split, seg5_split, seg6_split, seg7_split, seg8_split,
        seg9_split] at hocc
      have o1 := kheader_step s0h s0t p.name _ (by decide) (by decide)
        (hfields p.name (by simp)) hocc ⟨_, rfl⟩
      have o2 := kheader_step [] s1t p.type _ (by decide) (by decide)
        (hfields p.type (by simp)) o1 ⟨_, rfl⟩
      have o3 := kheader_step [] s2t p.features _ (by decide) (by decide)
        (hfields p.features (by simp)) o2 ⟨_, rfl⟩
      have o4 := kheader_step [] s3t p.uvp _ (by decide) (by decide)
        (hfields p.uvp (by simp)) o3 ⟨_, rfl⟩
      have o5 := kheader_step s4h s4t a.primary _ (by decide) (by decide)
        (hfields a.primary (by simp)) o4 ⟨_, rfl⟩
      have o6 := kheader_step [] s5t a.pain_points _ (by decide) (by decide)
        (hfields a.pain_points (by simp)) o5 ⟨_, rfl⟩
      have o7 := kheader_step [] s6t a.desired_outcomes _ (by decide) (by decide)
        (hfields a.desired_outcomes (by simp)) o6 ⟨_, rfl⟩
      have o8 := kheader_step s7h s7t c.tone _ (by decide) (by decide)
        (hfields c.tone (by simp)) o7 ⟨_, rfl⟩
      have o9 := kheader_step [] s8t c.length _ (by decide) (by decide)
        (hfields c.length (by simp)) o8 ⟨_, rfl⟩
      have o10 := kheader_step [] s9t c.emphasis _ (by decide) (by decide)
        (hfields c.emphasis (by simp)) o9 ⟨_, rfl⟩
      exact not_occurs_of_isSub_eq_false _ _ (by decide) o10
  refine ⟨hmain, ?_⟩
  cases hq : isSub kheaderLine (generate_prompt p a c []) with
  | false => rfl
  | true =>
    exfalso
    have hocc : OccursIn kheaderLine (generate_prompt p a c []) :=
      (isSub_iff_occurs _ _).mp hq
    have hocc2 : OccursIn (kheader ++ ['\n']) (generate_prompt p a c []) := hocc
    exact not_occurs_of_isSub_eq_false _ _ hmain
      (occurs_of_append_occurs kheader ['\n'] _ hocc2)

/-- Counterexample to C8 as stated: the claim quantifies over every product,
audience and style input, but a field value containing the header string
makes the header appear in the assembled prompt even though the
selected-knowledge list is empty. -/
theorem assemble_header_leaks :
    isSub kheader
      (generate_prompt
        ⟨kheader, "x".data, "x".data, "x".data⟩
        ⟨"x".data, "x".data, "x".data⟩
        ⟨"x".data, "x".data, "x".data⟩
        (knowledge_context [] [])) = true := by
  decide

/-- Product input of spec testable property 8. -/
def pDemo : ProductDetails :=
  ⟨"Focus Planner".data, "Digital Product".data, "daily templates".data,
   "built by productivity coaches".data⟩

/-- Audience input of spec testable property 8. -/
def aDemo : AudienceDetails :=
  ⟨"remote workers".data, "distraction".data, "more deep work".data⟩

/-- Style input of spec testable property 8. -/
def cDemo : Customization :=
  ⟨"confident".data, "short".data, "benefits".data⟩

/-- Witness for C8 (amended) at the concrete input of spec testable
property 8: no field contains the header, and the assembled prompt with no
selected knowledge contains neither the header nor the header line. -/
theorem assemble_no_header_witness :
    (∀ f ∈ [pDemo.name, pDemo.type, pDemo.features, pDemo.uvp, aDemo.primary,
        aDemo.pain_points, aDemo.desired_outcomes, cDemo.tone, cDemo.length, cDemo.emphasis],
      isSub kheader f = false)
      ∧ (isSub kheader (generate_prompt pDemo aDemo cDemo (knowledge_context [] [])) = false
          ∧ isSub kheaderLine (generate_prompt pDemo aDemo cDemo (knowledge_context [] []))
              = false) := by
  refine ⟨by decide, ?_⟩
  exact assemble_no_header pDemo aDemo cDemo [] (by decide)

/-- Concatenation of the formatted snippets of a list of knowledge items,
in list order. -/
def flatItems : List KnowledgeItem → List Char
  | [] => []
  | it :: its => fmtItem it ++ flatItems its

/-- When every selected id resolves (in order) to the items of a list, the
knowledge loop appends exactly their formatted snippets to the
accumulator. -/
theorem kcLoop_resolved (kb : List KnowledgeItem) :
    ∀ (sel : List (List Char)) (items : List KnowledgeItem) (acc : List Char),
      sel.map (fun kid => kb.find? (fun item => item.id == kid)) = items.map Option.some →
      kcLoop kb sel acc = acc ++ flatItems items := by
  intro sel
  induction sel with
  | nil =>
    intro items acc h
    have hi : items = [] := by
      cases items with
      | nil => rfl
      | cons a b => simp at h
    subst hi
    simp [kcLoop, flatItems]
  | cons kid rest ih =>
    intro items acc h
    cases items with
    | nil => simp at h
    | cons it its =>
      simp only [List.map_cons] at h
      injection h with h1 h2
      simp only [kcLoop, h1]
      rw [ih its _ h2]
      simp [flatItems, List.append_assoc]

/-- With a non-empty selection whose ids all resolve, the knowledge context
is the header line followed by the snippets in selection order. -/
theorem knowledge_context_section (kb : List KnowledgeItem) (sel : List (List Char))
    (items : List KnowledgeItem) (hne : sel ≠ [])
    (hres : sel.map (fun kid => kb.find? (fun item => item.id == kid)) = items.map Option.some) :
    knowledge_context kb sel = kheaderLine ++ flatItems items := by
  unfold knowledge_context
  rw [if_neg hne]
  exact kcLoop_resolved kb sel items kheaderLine hres

/-- C9: for a non-empty ordered selection whose ids all resolve in the
catalog (in order, to the listed items), the reference-knowledge section of
the assembled prompt is the header line followed by the snippets in
selection order, each snippet being a newline, the title, a colon and
newline, the content and a newline: the title of each snippet is
immediately followed by its content, and the whole section occurs
contiguously in the prompt. -/
theorem assemble_knowledge_order (p : ProductDetails) (a : AudienceDetails)
    (c : Customization) (kb : List KnowledgeItem) (sel : List (List Char))
    (items : List KnowledgeItem) (hne : sel ≠ [])
    (hres : sel.map (fun kid => kb.find? (fun item => item.id == kid)) = items.map Option.some) :
    knowledge_context kb sel = kheaderLine ++ flatItems items
      ∧ ∃ pre post, generate_prompt p a c (knowledge_context kb sel)
          = pre ++ ((kheaderLine ++ flatItems items) ++ post) := by
  have hk := knowledge_context_section kb sel items hne hres
  refine ⟨hk, ?_⟩
  refine ⟨seg0 ++ p.name ++ seg1 ++ p.type ++ seg2 ++ p.features ++ seg3 ++ p.uvp
      ++ seg4 ++ a.primary ++ seg5 ++ a.pain_points ++ seg6 ++ a.desired_outcomes
      ++ seg7 ++ c.tone ++ seg8 ++ c.length ++ seg9 ++ c.emphasis ++ seg10, seg11, ?_⟩
  simp [generate_prompt, hk, List.append_assoc]

/-- First catalog item of the C9 witness. -/
def itemA : KnowledgeItem := ⟨"a1".data, "Title A".data, "Content A".data, []⟩

/-- Second catalog item of the C9 witness. -/
def itemB : KnowledgeItem := ⟨"b2".data, "Title B".data, "Content B".data, []⟩

/-- Witness for C9: two snippets selected in the reverse of catalog order
come out in selection order, each title immediately followed by its
content. -/
theorem assemble_knowledge_order_witness :
    ((["b2".data, "a1".data] : List (List Char)) ≠ [])
      ∧ (["b2".data, "a1".data].map
            (fun kid => [itemA, itemB].find? (fun item => item.id == kid))
          = [itemB, itemA].map Option.some)
      ∧ (knowledge_context [itemA, itemB] ["b2".data, "a1".data]
            = kheaderLine ++ flatItems [itemB, itemA]
          ∧ ∃ pre post, generate_prompt pDemo aDemo cDemo
              (knowledge_context [itemA, itemB] ["b2".data, "a1".data])
              = pre ++ ((kheaderLine ++ flatItems [itemB, itemA]) ++ post)) := by
  refine ⟨by decide, by decide, ?_⟩
  exact assemble_knowledge_order pDemo aDemo cDemo [itemA, itemB]
    ["b2".data, "a1".data] [itemB, itemA] (by decide) (by decide)

end SalesLetter
